import Mathlib

/-!
Verification development for the `encore` crate (src/lib.rs): an embeddable
interactive console.  The background loop of `Console::new` is embedded as a
pure step function over an explicit state.  Rust `String`s are modelled as
`List Char` together with their UTF-8 byte lengths, because the source mixes a
character-count cursor with byte-indexed `String::insert`/`String::remove`
calls; an operation that would panic in Rust (out-of-bounds index, index not on
a character boundary, unsigned underflow) is modelled as `none`.  The terminal
redraw is a display side effect, but it can panic: `set_line!` slices
`&input[..cursor.min(input.len())]`, which requires a character boundary and is
modelled as the `setLineCheck` guard in every reprint branch; `clear_line!`'s
padding subtraction `width - input.len()` involves the terminal width, an input
the editor state does not determine, and is modelled separately as
`clearLinePad`.
-/

/-- Key events delivered by the raw input reader.  `other` covers both
unhandled `KeyEvent`s (the `_ => {}` arm) and non-keyboard `InputEvent`s,
which the loop ignores alike. -/
inductive Event where
  | backspace
  | delete
  | up
  | down
  | left
  | right
  | char (c : Char)
  | other
deriving DecidableEq

/-- UTF-8 byte length of a Rust `String` modelled as a list of characters. -/
def byteLen (l : List Char) : Nat :=
  (l.map Char.utf8Size).sum

/-- Model of `String::insert(i, c)`: `i` is a byte index; the insertion
succeeds only when `i` lands on a character boundary at or before the end of
the string, and panics (here: `none`) otherwise. -/
def insertAtByte (l : List Char) (i : Nat) (c : Char) : Option (List Char) :=
  if i = 0 then some (c :: l)
  else
    match l with
    | [] => none
    | a :: t =>
        if i < a.utf8Size then none
        else (insertAtByte t (i - a.utf8Size) c).map (a :: ·)

/-- Model of `String::remove(i)`: removes the character starting at byte
index `i`; panics (here: `none`) when `i` is past the end or not on a
character boundary. -/
def removeAtByte (l : List Char) (i : Nat) : Option (List Char) :=
  match l with
  | [] => none
  | a :: t =>
      if i = 0 then some t
      else if i < a.utf8Size then none
      else (removeAtByte t (i - a.utf8Size)).map (a :: ·)

/-- Model of `str::is_char_boundary(i)` for a valid UTF-8 string: `i` is 0,
or the start of a character, or the end of the string. -/
def isBoundary (l : List Char) (i : Nat) : Bool :=
  if i = 0 then true
  else
    match l with
    | [] => false
    | a :: t =>
        if i < a.utf8Size then false
        else isBoundary t (i - a.utf8Size)

/-- Model of the panic hazard in the `set_line!` redraw: after assigning the
new input, it prints the slice `&input[..cursor.min(input.len())]`, which
panics (in every build profile) unless the clamped byte index lies on a
character boundary.  `true` means the slice, and hence the redraw, succeeds. -/
def setLineCheck (input1 : List Char) (cur : Nat) : Bool :=
  isBoundary input1 (min cur (byteLen input1))

/-- Model of Rust `char::is_whitespace`: the Unicode White_Space code
points. -/
def isWs (c : Char) : Bool :=
  [0x09, 0x0A, 0x0B, 0x0C, 0x0D, 0x20, 0x85, 0xA0, 0x1680,
   0x2000, 0x2001, 0x2002, 0x2003, 0x2004, 0x2005, 0x2006, 0x2007,
   0x2008, 0x2009, 0x200A, 0x2028, 0x2029, 0x202F, 0x205F, 0x3000].contains c.toNat

/-- Model of `str::trim`: strips leading and trailing whitespace. -/
def trim (l : List Char) : List Char :=
  ((l.dropWhile isWs).reverse.dropWhile isWs).reverse

/-- The state shared by the background loop and the `Console` handle:
the thread-local editor state (`input`, `history`, `curr`, `cursor`, the
processor state `proc`), the shared atomic `closed` flag, and the contents of
the `mpsc` channel (`sent`, written by `send.send`, read by `try_recv`). -/
structure LoopState (σ M : Type) where
  proc : σ
  input : List Char
  history : List (List Char)
  curr : Option Nat
  cursor : Nat
  closed : Bool
  sent : List M
deriving DecidableEq

/-- Why the background loop's body can stop iterating. -/
inductive ExitReason where
  | inputExhausted
  | closedObserved
  | reactionNone
deriving DecidableEq

/-- One iteration body of the `for event in reader` loop in `Console::new`,
given the processor `parseFn` (the `CommandProcessor::parse` method with its
receiver state threaded explicitly) and the reaction callback `process`.
Returns `none` when the corresponding Rust code panics; otherwise
`some (state, exited)` where `exited` records an early `return` out of the
loop (the reaction-returned-`None` branch).  Every branch that runs
`set_line!` carries the `setLineCheck` guard for the redraw's slice, applied
to the new input and the already-updated cursor, exactly where the source
runs the redraw (Rust mutates, then adjusts the cursor, then redraws). -/
def handleEvent (parseFn : σ → List Char → σ × P) (process : P → Option M)
    (s : LoopState σ M) : Event → Option (LoopState σ M × Bool)
  | Event.backspace =>
      if byteLen s.input ≤ s.cursor then
        match s.input with
        | [] => some (s, false)
        | _ :: _ =>
            if setLineCheck s.input.dropLast (s.cursor - 1) then
              some ({ s with input := s.input.dropLast, cursor := s.cursor - 1 }, false)
            else none
      else if s.input ≠ [] ∧ 0 < s.cursor then
        match removeAtByte s.input (s.cursor - 1) with
        | none => none
        | some inp =>
            if setLineCheck inp (s.cursor - 1) then
              some ({ s with input := inp, cursor := s.cursor - 1 }, false)
            else none
      else some (s, false)
  | Event.delete =>
      if s.cursor < byteLen s.input then
        match removeAtByte s.input s.cursor with
        | none => none
        | some inp =>
            if setLineCheck inp s.cursor then
              some ({ s with input := inp }, false)
            else none
      else some (s, false)
  | Event.up =>
      let c0 := match s.curr with
        | none => s.history.length
        | some c => c
      let c1 := if 0 < c0 then c0 - 1 else c0
      match s.history.get? c1 with
      | none => none
      | some h =>
          if setLineCheck h (byteLen h) then
            some ({ s with curr := some c1, input := h, cursor := byteLen h }, false)
          else none
  | Event.down =>
      match s.curr with
      | none => some (s, false)
      | some c =>
          if s.history.length = 0 then
            -- `history.len() - 1` underflows in usize and the subsequent
            -- index is out of bounds either way: the thread panics.
            none
          else if c < s.history.length - 1 then
            match s.history.get? (c + 1) with
            | none => none
            | some h =>
                if setLineCheck h (byteLen h) then
                  some ({ s with curr := some (c + 1), input := h, cursor := byteLen h }, false)
                else none
          else
            if setLineCheck [] 0 then
              some ({ s with curr := none, input := [], cursor := 0 }, false)
            else none
  | Event.left =>
      if 0 < s.cursor then
        if setLineCheck s.input (s.cursor - 1) then
          some ({ s with cursor := s.cursor - 1 }, false)
        else none
      else some (s, false)
  | Event.right =>
      if s.cursor < byteLen s.input then
        if setLineCheck s.input (s.cursor + 1) then
          some ({ s with cursor := s.cursor + 1 }, false)
        else none
      else some (s, false)
  | Event.char c =>
      if c = '\n' then
        let pp := parseFn s.proc (trim s.input)
        let hist := s.history ++ [trim s.input]
        match process pp.2 with
        | some m =>
            some ({ s with proc := pp.1, input := [], cursor := 0, curr := none,
                           history := hist, sent := s.sent ++ [m] }, false)
        | none =>
            some ({ s with proc := pp.1, input := [], cursor := 0, curr := none,
                           history := hist, closed := true }, true)
      else
        match insertAtByte s.input s.cursor c with
        | none => none
        | some inp =>
            if setLineCheck inp (s.cursor + 1) then
              some ({ s with input := inp, cursor := s.cursor + 1 }, false)
            else none
  | Event.other => some (s, false)

/-- The background loop over a (finite) sequence of raw input events: each
iteration first observes the shared `closed` flag and returns if it is set,
then handles one event.  The result is `none` when the thread panics,
otherwise the final state and why the loop stopped. -/
def runLoop (parseFn : σ → List Char → σ × P) (process : P → Option M)
    (s : LoopState σ M) : List Event → Option (LoopState σ M × ExitReason)
  | [] => some (s, ExitReason.inputExhausted)
  | e :: rest =>
      if s.closed then some (s, ExitReason.closedObserved)
      else
        match handleEvent parseFn process s e with
        | none => none
        | some (s1, true) => some (s1, ExitReason.reactionNone)
        | some (s1, false) => runLoop parseFn process s1 rest

/-- The state `Console::new` starts the background thread with: empty input,
empty history, not browsing, cursor 0, flag clear, empty channel.  `p0` is the
processor produced by `builder()`. -/
def initState (p0 : σ) : LoopState σ M :=
  { proc := p0, input := [], history := [], curr := none, cursor := 0,
    closed := false, sent := [] }

/-- Model of `Console::is_open`: the negation of the shared `closed` flag. -/
def isOpen (s : LoopState σ M) : Bool :=
  !s.closed

/-- Model of `Console::poll` (`self.recv.try_recv().ok()`): take the oldest
message out of the channel, if any. -/
def poll (s : LoopState σ M) : Option M × LoopState σ M :=
  match s.sent with
  | [] => (none, s)
  | m :: rest => (some m, { s with sent := rest })

/-- Repeated polling: collect up to `n` messages, stopping at the first
`none`. -/
def pollN : Nat → LoopState σ M → List M
  | 0, _ => []
  | n + 1, s =>
      match poll s with
      | (none, _) => []
      | (some m, s1) => m :: pollN n s1

/-- Model of `Drop for Console`: store `true` into the shared `closed` flag
(the subsequent `join` is the loop observing the flag and returning, which
`runLoop` models). -/
def dropConsole (s : LoopState σ M) : LoopState σ M :=
  { s with closed := true }

/-- Model of the `clear_line!` padding computation
`(0..(width as usize - input.len())).map(|_| ' ').collect()`: the unsigned
subtraction `width - len` underflows when `len > width` (a panic in debug
builds), modelled as `none`. -/
def clearLinePad (width len : Nat) : Option (List Char) :=
  if len ≤ width then some (List.replicate (width - len) ' ') else none

/-- A concrete processor for witnesses: the identity `Fn(&str) -> R` instance
of `CommandProcessor` (stateless, returns the line itself). -/
def idProc : Unit → List Char → Unit × List Char :=
  fun u l => (u, l)

/-- A concrete reaction callback that always keeps the console open,
emitting the line length as the message. -/
def lenReact : List Char → Option Nat :=
  fun l => some l.length

/-- A concrete reaction callback that always requests shutdown. -/
def noneReact : List Char → Option Nat :=
  fun _ => none

/-- The concrete initial state used by witnesses and counterexamples. -/
def pInit : LoopState Unit Nat :=
  initState ()

/-- A concrete console state holding three undelivered messages. -/
def stSentW : LoopState Unit Nat :=
  { proc := (), input := [], history := [], curr := none, cursor := 0,
    closed := false, sent := [3, 1, 2] }

/-- A concrete state browsing the single history entry `"a"`. -/
def stUpA : LoopState Unit Nat :=
  { proc := (), input := ['a'], history := [['a']], curr := some 0, cursor := 1,
    closed := false, sent := [] }

/-- The state after submitting an empty line to a reaction that requests
shutdown: flag set, one blank history entry, nothing sent. -/
def closedAfterQuit : LoopState Unit Nat :=
  { proc := (), input := [], history := [[]], curr := none, cursor := 0,
    closed := true, sent := [] }

/-- The state after typing a single `a` into a fresh console. -/
def stTypedA : LoopState Unit Nat :=
  { proc := (), input := ['a'], history := [], curr := none, cursor := 1,
    closed := false, sent := [] }

/-- Lists all of whose characters occupy a single UTF-8 byte (the regime in
which the source's character-count cursor and its byte-indexed string
operations agree). -/
abbrev OneByte (l : List Char) : Prop :=
  ∀ c ∈ l, c.utf8Size = 1

/-- The editor invariant: the live input and every stored history entry are
single-byte text, and the cursor lies within the buffer. -/
abbrev EditInv (s : LoopState σ M) : Prop :=
  OneByte s.input ∧ (∀ h ∈ s.history, OneByte h) ∧ s.cursor ≤ byteLen s.input

/-- The key events produced by typing the characters of a line and pressing
return. -/
def typeLine (l : List Char) : List Event :=
  l.map Event.char ++ [Event.char '\n']

theorem byteLen_cons (a : Char) (t : List Char) :
    byteLen (a :: t) = a.utf8Size + byteLen t := by
  simp [byteLen]

theorem byteLen_append (l1 l2 : List Char) :
    byteLen (l1 ++ l2) = byteLen l1 + byteLen l2 := by
  simp [byteLen]

theorem byteLen_oneByte (l : List Char) (h : OneByte l) : byteLen l = l.length := by
  induction l with
  | nil => rfl
  | cons a t ih =>
      have ha : a.utf8Size = 1 := h a (List.mem_cons_self a t)
      have ht : OneByte t := fun c hc => h c (List.mem_cons_of_mem a hc)
      rw [byteLen_cons, ha, ih ht, List.length_cons]
      omega

theorem insertAtByte_byteLen (l : List Char) (c : Char) :
    insertAtByte l (byteLen l) c = some (l ++ [c]) := by
  induction l with
  | nil => rfl
  | cons a t ih =>
      have hpos : 0 < a.utf8Size := Char.utf8Size_pos a
      have h0 : ¬ byteLen (a :: t) = 0 := by rw [byteLen_cons]; omega
      have hlt : ¬ byteLen (a :: t) < a.utf8Size := by rw [byteLen_cons]; omega
      have hsub : byteLen (a :: t) - a.utf8Size = byteLen t := by rw [byteLen_cons]; omega
      rw [insertAtByte, if_neg h0]
      simp only [if_neg hlt, hsub, ih, Option.map_some]
      rfl

theorem isBoundary_byteLen (l : List Char) : isBoundary l (byteLen l) = true := by
  induction l with
  | nil => rfl
  | cons a t ih =>
      have hpos : 0 < a.utf8Size := Char.utf8Size_pos a
      have h0 : ¬ byteLen (a :: t) = 0 := by rw [byteLen_cons]; omega
      have hlt : ¬ byteLen (a :: t) < a.utf8Size := by rw [byteLen_cons]; omega
      have hsub : byteLen (a :: t) - a.utf8Size = byteLen t := by rw [byteLen_cons]; omega
      rw [isBoundary, if_neg h0]
      simp only [if_neg hlt, hsub, ih]

theorem isBoundary_append_oneByte (l1 l2 : List Char) (j : Nat) (h : OneByte l1) :
    isBoundary (l1 ++ l2) (l1.length + j) = isBoundary l2 j := by
  induction l1 with
  | nil => simp
  | cons a t ih =>
      have ha : a.utf8Size = 1 := h a (List.mem_cons_self a t)
      have ht : OneByte t := fun x hx => h x (List.mem_cons_of_mem a hx)
      rw [List.cons_append, List.length_cons]
      rw [isBoundary, if_neg (by omega : ¬ t.length + 1 + j = 0), ha]
      simp only [if_neg (by omega : ¬ t.length + 1 + j < 1)]
      have hsub : t.length + 1 + j - 1 = t.length + j := by omega
      rw [hsub, ih ht]

theorem boundary_one_of_cons (c : Char) (l2 : List Char)
    (h : isBoundary (c :: l2) 1 = true) : c.utf8Size = 1 := by
  have hpos : 0 < c.utf8Size := Char.utf8Size_pos c
  by_contra hne
  have h2 : 1 < c.utf8Size := by omega
  rw [isBoundary, if_neg (by omega : ¬ (1 : Nat) = 0)] at h
  simp only [if_pos h2] at h
  exact absurd h Bool.false_ne_true

theorem setLineCheck_end (l : List Char) : setLineCheck l (byteLen l) = true := by
  unfold setLineCheck
  rw [Nat.min_self, isBoundary_byteLen]

theorem setLineCheck_nil : setLineCheck [] 0 = true := rfl

theorem insertAtByte_oneByte (l : List Char) (i : Nat) (c : Char)
    (h1 : OneByte l) (hi : i ≤ l.length) :
    insertAtByte l i c = some (l.take i ++ c :: l.drop i) := by
  induction l generalizing i with
  | nil =>
      have : i = 0 := by simpa using hi
      subst this
      rfl
  | cons a t ih =>
      cases i with
      | zero => rfl
      | succ j =>
          have ha : a.utf8Size = 1 := h1 a (List.mem_cons_self a t)
          have ht : OneByte t := fun x hx => h1 x (List.mem_cons_of_mem a hx)
          have hj : j ≤ t.length := by simpa using hi
          rw [insertAtByte, if_neg (by omega), ha]
          simp only [if_neg (by omega : ¬ j + 1 < 1)]
          have hsub : j + 1 - 1 = j := by omega
          rw [hsub, ih j ht hj]
          rfl

theorem removeAtByte_oneByte (l : List Char) (i : Nat)
    (h1 : OneByte l) (hi : i < l.length) :
    removeAtByte l i = some (l.eraseIdx i) := by
  induction l generalizing i with
  | nil => simp at hi
  | cons a t ih =>
      cases i with
      | zero => rfl
      | succ j =>
          have ha : a.utf8Size = 1 := h1 a (List.mem_cons_self a t)
          have ht : OneByte t := fun x hx => h1 x (List.mem_cons_of_mem a hx)
          have hj : j < t.length := by simpa using hi
          rw [removeAtByte, if_neg (by omega), ha]
          simp only [if_neg (by omega : ¬ j + 1 < 1)]
          have hsub : j + 1 - 1 = j := by omega
          rw [hsub, ih j ht hj]
          rfl

theorem mem_trim (l : List Char) (c : Char) (h : c ∈ trim l) : c ∈ l := by
  unfold trim at h
  rw [List.mem_reverse] at h
  have h2 := (List.dropWhile_sublist isWs).subset h
  rw [List.mem_reverse] at h2
  exact (List.dropWhile_sublist isWs).subset h2

theorem pollN_sent (n : Nat) :
    ∀ (s : LoopState σ M), s.sent.length ≤ n → pollN n s = s.sent := by
  induction n with
  | zero =>
      intro s h
      have : s.sent = [] := List.length_eq_zero.mp (Nat.le_zero.mp h)
      rw [pollN, this]
  | succ n ih =>
      intro s h
      cases hs : s.sent with
      | nil => simp [pollN, poll, hs]
      | cons m rest =>
          have hr : ({ s with sent := rest } : LoopState σ M).sent.length ≤ n := by
            have := h
            rw [hs] at this
            simpa using this
          simp only [pollN, poll, hs, ih _ hr]


/-- C10: the `clear_line!` padding subtraction `width - input.len()` is
well-defined exactly when the input buffer is no longer than the terminal
width — when the buffer is longer, the unsigned subtraction underflows — and
when defined the padding holds exactly `width - len` spaces. -/
theorem clear_line_padding_defined_iff (width len : Nat) :
    ((clearLinePad width len).isSome ↔ len ≤ width) ∧
    (∀ p, clearLinePad width len = some p → p.length = width - len) := by
  constructor
  · unfold clearLinePad
    split <;> simp_all
  · intro p hp
    unfold clearLinePad at hp
    split at hp
    · rw [← Option.some.inj hp, List.length_replicate]
    · simp at hp

/-- Witness for C10: with terminal width 5, a 3-character buffer yields a
2-space padding, and a 7-character buffer makes the subtraction undefined. -/
theorem clear_line_padding_witness :
    (List.replicate (5 - 3) ' ').length = 5 - 3 ∧ ((clearLinePad 5 7).isSome ↔ 7 ≤ 5) :=
  ⟨(clear_line_padding_defined_iff 5 3).2 (List.replicate (5 - 3) ' ') rfl,
   (clear_line_padding_defined_iff 5 7).1⟩

/-- C3: pressing Up while the history is empty is not a no-op in the code:
the loop body evaluates `history[0]` on an empty vector, which panics, so
the run has no successor state. -/
theorem up_with_empty_history_panics :
    runLoop idProc lenReact pInit [Event.up] = none := rfl

/-- C9: typing a two-byte character and then any further character panics:
the cursor advanced by one while the buffer grew by two bytes, so the next
`String::insert` call lands inside the first character, off a character
boundary. -/
theorem char_after_multibyte_panics :
    runLoop idProc lenReact pInit [Event.char 'é', Event.char 'x'] = none := rfl

/-- C8: dropping the handle reports the console closed, and every message
already in the channel remains retrievable by polling, oldest first, until
the queue is empty. -/
theorem messages_survive_shutdown (s : LoopState σ M) (n : Nat)
    (h : s.sent.length ≤ n) :
    isOpen (dropConsole s) = false ∧ pollN n (dropConsole s) = s.sent :=
  ⟨rfl, pollN_sent n (dropConsole s) h⟩

/-- Witness for C8: a console holding messages 3, 1, 2 still yields exactly
3, 1, 2 in that order after the handle is dropped. -/
theorem messages_survive_shutdown_witness :
    isOpen (dropConsole stSentW) = false ∧ pollN 3 (dropConsole stSentW) = [3, 1, 2] :=
  messages_survive_shutdown stSentW 3 (by decide)

/-- C2 counterexample: submitting a line whose trim is empty does append to
History — pressing return on an empty buffer pushes the empty string, where
the claim says nothing is appended. -/
theorem submit_blank_line_appends_blank :
    (runLoop idProc lenReact pInit [Event.char '\n']).map (fun r => r.1.history) =
      some [[]] ∧
    ¬ (runLoop idProc lenReact pInit [Event.char '\n']).map (fun r => r.1.history) =
      some [] :=
  ⟨rfl, by decide⟩

/-- C2 amended: every submitted line, blank or not, appends exactly one
entry equal to its trim to History, and resets the history cursor to "not
browsing". -/
theorem submit_appends_trimmed_line (parseFn : σ → List Char → σ × P)
    (process : P → Option M) (s : LoopState σ M) :
    (handleEvent parseFn process s (Event.char '\n')).map
        (fun r => (r.1.history, r.1.curr)) =
      some (s.history ++ [trim s.input], none) := by
  simp only [handleEvent, if_pos rfl]
  cases h : process (parseFn s.proc (trim s.input)).2 <;> simp [h]

/-- C4 counterexample: with history `["a", "b"]`, a Down event taken while
browsing the oldest entry (index 0) advances to index 1 and loads `"b"`; it
does not return to "not browsing" with an empty buffer as the claim says. -/
theorem down_from_oldest_advances :
    (runLoop idProc lenReact pInit
        [Event.char 'a', Event.char '\n', Event.char 'b', Event.char '\n',
         Event.up, Event.up, Event.down]).map
      (fun r => (r.1.curr, r.1.input, r.1.cursor)) = some (some 1, ['b'], 1) ∧
    ¬ (runLoop idProc lenReact pInit
        [Event.char 'a', Event.char '\n', Event.char 'b', Event.char '\n',
         Event.up, Event.up, Event.down]).map
      (fun r => (r.1.curr, r.1.input, r.1.cursor)) = some (none, [], 0) :=
  ⟨rfl, by decide⟩

/-- C4 amended: while browsing, an Up event moves the browsing index from
`c` to `c - 1` in truncated arithmetic — flooring at 0, no wraparound — and
a Down event taken from the most recent (last) entry, not the oldest,
returns to "not browsing" with an empty buffer and cursor 0. -/
theorem history_browsing_bounds (parseFn : σ → List Char → σ × P)
    (process : P → Option M) :
    (∀ (s : LoopState σ M) (c : Nat), s.curr = some c → c < s.history.length →
        (handleEvent parseFn process s Event.up).map (fun r => r.1.curr) =
          some (some (c - 1))) ∧
    (∀ (s : LoopState σ M), s.curr = some (s.history.length - 1) →
        s.history ≠ [] →
        (handleEvent parseFn process s Event.down).map
          (fun r => (r.1.curr, r.1.input, r.1.cursor)) = some (none, [], 0)) := by
  constructor
  · intro s c hc hlt
    have hif : (if 0 < c then c - 1 else c) = c - 1 := by cases c <;> simp
    have h2 : c - 1 < s.history.length := by omega
    simp only [handleEvent, hc, hif]
    rw [List.get?_eq_get h2]
    simp [setLineCheck_end]
  · intro s hcurr hne
    have hlen : ¬ s.history.length = 0 := by
      have := List.length_pos.mpr hne
      omega
    have hlt : ¬ s.history.length - 1 < s.history.length - 1 := by omega
    simp only [handleEvent, hcurr, if_neg hlen, if_neg hlt]
    simp [setLineCheck_nil]

/-- Witness for C4 with the one-entry history `["a"]`: Up from index 0 stays
at index 0, and Down from the last entry leaves browsing with an empty
buffer and cursor 0. -/
theorem history_browsing_bounds_witness :
    (handleEvent idProc lenReact stUpA Event.up).map (fun r => r.1.curr) =
      some (some 0) ∧
    (handleEvent idProc lenReact stUpA Event.down).map
      (fun r => (r.1.curr, r.1.input, r.1.cursor)) = some (none, [], 0) :=
  ⟨(history_browsing_bounds idProc lenReact).1 stUpA 0 rfl (by decide),
   (history_browsing_bounds idProc lenReact).2 stUpA rfl (by decide)⟩

/-- C6: on a submitted line, if the reaction callback returns nothing then
no message is enqueued, the shared flag is stored true and the loop body
returns; if it returns a message, exactly that message is appended to the
channel and the flag — hence the console's openness — is untouched. -/
theorem reaction_none_closes_console (parseFn : σ → List Char → σ × P)
    (process : P → Option M) (s : LoopState σ M) :
    (process (parseFn s.proc (trim s.input)).2 = none →
        (handleEvent parseFn process s (Event.char '\n')).map
          (fun r => (r.1.closed, r.1.sent, r.2)) = some (true, s.sent, true)) ∧
    (∀ m, process (parseFn s.proc (trim s.input)).2 = some m →
        (handleEvent parseFn process s (Event.char '\n')).map
          (fun r => (r.1.closed, r.1.sent, r.2)) =
          some (s.closed, s.sent ++ [m], false)) := by
  constructor
  · intro h
    simp [handleEvent, h]
  · intro m h
    simp [handleEvent, h]

/-- Witness for C6: an always-none reaction closes the console on an empty
submission without sending, and an always-some reaction sends exactly its
message and leaves the console open. -/
theorem reaction_none_closes_console_witness :
    (handleEvent idProc noneReact pInit (Event.char '\n')).map
        (fun r => (r.1.closed, r.1.sent, r.2)) = some (true, [], true) ∧
    (handleEvent idProc lenReact pInit (Event.char '\n')).map
        (fun r => (r.1.closed, r.1.sent, r.2)) = some (false, [0], false) :=
  ⟨(reaction_none_closes_console idProc noneReact pInit).1 rfl,
   (reaction_none_closes_console idProc lenReact pInit).2 0 rfl⟩

theorem handleEvent_exit_closed (parseFn : σ → List Char → σ × P)
    (process : P → Option M) (s : LoopState σ M) (e : Event)
    (s1 : LoopState σ M) (h : handleEvent parseFn process s e = some (s1, true)) :
    s1.closed = true := by
  cases e <;> simp only [handleEvent] at h <;> (repeat' split at h) <;>
    (try simp_all)
  subst h
  rfl

/-- C1 counterexample: when the raw input sequence ends, the loop exits via
the input-exhaustion trigger, yet `is_open()` still reports true — the
natural exit path never stores the shutdown flag. -/
theorem eof_exit_leaves_open :
    runLoop idProc lenReact pInit [] = some (pInit, ExitReason.inputExhausted) ∧
    isOpen pInit = true :=
  ⟨rfl, rfl⟩

/-- C1 amended: a run that exits because the reaction returned nothing ends
with the flag set, so `is_open()` reports false; dropping the handle makes
`is_open()` report false and the loop, observing the flag at the top of its
next iteration, exits with the state — in particular the message queue —
untouched; and when the raw input sequence ends the loop exits enqueuing
nothing further, but that exit path does not set the flag, so `is_open()`
reports false only once the handle is dropped. -/
theorem shutdown_triggers (parseFn : σ → List Char → σ × P)
    (process : P → Option M) :
    (∀ (s s1 : LoopState σ M) (events : List Event),
        runLoop parseFn process s events = some (s1, ExitReason.reactionNone) →
        s1.closed = true ∧ isOpen s1 = false) ∧
    (∀ (s : LoopState σ M) (e : Event) (rest : List Event),
        isOpen (dropConsole s) = false ∧
        runLoop parseFn process (dropConsole s) (e :: rest) =
          some (dropConsole s, ExitReason.closedObserved)) ∧
    (∀ (s : LoopState σ M),
        runLoop parseFn process s [] = some (s, ExitReason.inputExhausted)) := by
  refine ⟨?_, ?_, ?_⟩
  · intro s s1 events h
    induction events generalizing s with
    | nil => simp [runLoop] at h
    | cons e rest ih =>
        rw [runLoop] at h
        by_cases hcl : s.closed
        · rw [if_pos hcl] at h
          simp at h
        · rw [if_neg hcl] at h
          cases he : handleEvent parseFn process s e with
          | none => rw [he] at h; simp at h
          | some r =>
              rw [he] at h
              obtain ⟨s2, b⟩ := r
              cases b
              · exact ih s2 h
              · have hcl2 := handleEvent_exit_closed parseFn process s e s2 he
                simp only [Option.some.injEq, Prod.mk.injEq] at h
                obtain ⟨rfl, -⟩ := h
                exact ⟨hcl2, by simp [isOpen, hcl2]⟩
  · intro s e rest
    have hcl : (dropConsole s).closed = true := rfl
    exact ⟨rfl, by rw [runLoop, if_pos hcl]⟩
  · intro s
    rfl

/-- Witness for C1: submitting a line that the reaction rejects ends the run
via the reaction trigger with the flag set and `is_open()` false. -/
theorem shutdown_triggers_witness :
    closedAfterQuit.closed = true ∧ isOpen closedAfterQuit = false :=
  (shutdown_triggers idProc noneReact).1 pInit closedAfterQuit
    [Event.char '\n'] rfl

theorem oneByte_subset {l1 l2 : List Char} (hs : l1 ⊆ l2) (h : OneByte l2) :
    OneByte l1 :=
  fun c hc => h c (hs hc)

theorem step_out_eq {σ M : Type} {x : LoopState σ M} {y : Bool}
    {x1 : LoopState σ M} {y1 : Bool}
    (h : some (x, y) = some (x1, y1)) : x1 = x ∧ y1 = y := by
  cases h
  exact ⟨rfl, rfl⟩

theorem handleEvent_inv (parseFn : σ → List Char → σ × P) (process : P → Option M)
    (s : LoopState σ M) (e : Event) (s1 : LoopState σ M) (b : Bool)
    (hs : EditInv s)
    (h : handleEvent parseFn process s e = some (s1, b)) :
    EditInv s1 := by
  obtain ⟨hin, hhist, hcur⟩ := hs
  have hbl : byteLen s.input = s.input.length := byteLen_oneByte _ hin
  cases e with
  | backspace =>
      simp only [handleEvent] at h
      by_cases hge : byteLen s.input ≤ s.cursor
      · rw [if_pos hge] at h
        cases hi : s.input with
        | nil =>
            simp only [hi] at h
            obtain ⟨rfl, rfl⟩ := step_out_eq h
            exact ⟨hin, hhist, hcur⟩
        | cons a t =>
            simp only [hi] at h
            split at h
            · obtain ⟨rfl, rfl⟩ := step_out_eq h
              have hone : OneByte ((a :: t).dropLast) :=
                oneByte_subset (List.dropLast_sublist (a :: t)).subset (hi ▸ hin)
              refine ⟨hone, hhist, ?_⟩
              show s.cursor - 1 ≤ byteLen ((a :: t).dropLast)
              have h1 : byteLen ((a :: t).dropLast) = t.length := by
                rw [byteLen_oneByte _ hone, List.length_dropLast, List.length_cons]
                omega
              have h2 : s.input.length = t.length + 1 := by
                rw [hi, List.length_cons]
              rw [h1]
              omega
            · simp at h
      · rw [if_neg hge] at h
        split at h
        · next hc =>
            obtain ⟨hne, hpos⟩ := hc
            have hlt : s.cursor - 1 < s.input.length := by omega
            simp only [removeAtByte_oneByte s.input (s.cursor - 1) hin hlt] at h
            split at h
            · obtain ⟨rfl, rfl⟩ := step_out_eq h
              have hone : OneByte (s.input.eraseIdx (s.cursor - 1)) :=
                oneByte_subset (List.eraseIdx_subset s.input (s.cursor - 1)) hin
              refine ⟨hone, hhist, ?_⟩
              show s.cursor - 1 ≤ byteLen (s.input.eraseIdx (s.cursor - 1))
              rw [byteLen_oneByte _ hone, List.length_eraseIdx, if_pos hlt]
              omega
            · simp at h
        · next hc =>
            obtain ⟨rfl, rfl⟩ := step_out_eq h
            exact ⟨hin, hhist, hcur⟩
  | delete =>
      simp only [handleEvent] at h
      split at h
      · next hlt =>
          have hlt2 : s.cursor < s.input.length := by omega
          simp only [removeAtByte_oneByte s.input s.cursor hin hlt2] at h
          split at h
          · obtain ⟨rfl, rfl⟩ := step_out_eq h
            have hone : OneByte (s.input.eraseIdx s.cursor) :=
              oneByte_subset (List.eraseIdx_subset s.input s.cursor) hin
            refine ⟨hone, hhist, ?_⟩
            show s.cursor ≤ byteLen (s.input.eraseIdx s.cursor)
            rw [byteLen_oneByte _ hone, List.length_eraseIdx, if_pos hlt2]
            omega
          · simp at h
      · next hge =>
          obtain ⟨rfl, rfl⟩ := step_out_eq h
          exact ⟨hin, hhist, hcur⟩
  | up =>
      simp only [handleEvent] at h
      split at h
      · simp at h
      · next h0 heq =>
          split at h
          · obtain ⟨rfl, rfl⟩ := step_out_eq h
            exact ⟨hhist h0 (List.get?_mem heq), hhist, le_refl _⟩
          · simp at h
  | down =>
      simp only [handleEvent] at h
      split at h
      · obtain ⟨rfl, rfl⟩ := step_out_eq h
        exact ⟨hin, hhist, hcur⟩
      · next c hc =>
          split at h
          · simp at h
          · split at h
            · split at h
              · simp at h
              · next h0 heq =>
                  split at h
                  · obtain ⟨rfl, rfl⟩ := step_out_eq h
                    exact ⟨hhist h0 (List.get?_mem heq), hhist, le_refl _⟩
                  · simp at h
            · split at h
              · obtain ⟨rfl, rfl⟩ := step_out_eq h
                exact ⟨by simp [OneByte], hhist, by simp [byteLen]⟩
              · simp at h
  | left =>
      simp only [handleEvent] at h
      split at h
      · split at h
        · obtain ⟨rfl, rfl⟩ := step_out_eq h
          refine ⟨hin, hhist, ?_⟩
          show s.cursor - 1 ≤ byteLen s.input
          omega
        · simp at h
      · obtain ⟨rfl, rfl⟩ := step_out_eq h
        exact ⟨hin, hhist, hcur⟩
  | right =>
      simp only [handleEvent] at h
      split at h
      · next hlt =>
          split at h
          · obtain ⟨rfl, rfl⟩ := step_out_eq h
            refine ⟨hin, hhist, ?_⟩
            show s.cursor + 1 ≤ byteLen s.input
            omega
          · simp at h
      · obtain ⟨rfl, rfl⟩ := step_out_eq h
        exact ⟨hin, hhist, hcur⟩
  | char c =>
      simp only [handleEvent] at h
      by_cases hnl : c = '\n'
      · rw [if_pos hnl] at h
        have htr : OneByte (trim s.input) :=
          fun x hx => hin x (mem_trim s.input x hx)
        have hh2 : ∀ l ∈ s.history ++ [trim s.input], OneByte l := by
          intro l hl
          rcases List.mem_append.mp hl with hl | hl
          · exact hhist l hl
          · rw [List.mem_singleton.mp hl]
            exact htr
        split at h
        · obtain ⟨rfl, rfl⟩ := step_out_eq h
          exact ⟨by simp [OneByte], hh2, by simp [byteLen]⟩
        · obtain ⟨rfl, rfl⟩ := step_out_eq h
          exact ⟨by simp [OneByte], hh2, by simp [byteLen]⟩
      · rw [if_neg hnl] at h
        have hcur2 : s.cursor ≤ s.input.length := by omega
        simp only [insertAtByte_oneByte s.input s.cursor c hin hcur2] at h
        split at h
        · next hg =>
            -- the redraw slice succeeded, which forces `c` to be one byte:
            -- the slice index `cursor + 1` can only be a boundary of the new
            -- input if the inserted character occupies exactly one byte
            have ht1 : byteLen (s.input.take s.cursor) = s.cursor := by
              rw [byteLen_oneByte _ (oneByte_subset (List.take_subset _ _) hin),
                List.length_take]
              omega
            have hd1 : byteLen (s.input.drop s.cursor) = s.input.length - s.cursor := by
              rw [byteLen_oneByte _ (oneByte_subset (List.drop_subset _ _) hin),
                List.length_drop]
            have hk : 0 < c.utf8Size := Char.utf8Size_pos c
            have h4 : byteLen (s.input.take s.cursor ++ c :: s.input.drop s.cursor) =
                s.input.length + c.utf8Size := by
              rw [byteLen_append, byteLen_cons, ht1, hd1]
              omega
            unfold setLineCheck at hg
            rw [h4, Nat.min_eq_left (by omega)] at hg
            have hlt1 : (s.input.take s.cursor).length = s.cursor := by
              rw [List.length_take]
              omega
            have hpeel := isBoundary_append_oneByte (s.input.take s.cursor)
              (c :: s.input.drop s.cursor) 1
              (oneByte_subset (List.take_subset _ _) hin)
            rw [hlt1] at hpeel
            rw [hpeel] at hg
            have hc1 : c.utf8Size = 1 := boundary_one_of_cons c _ hg
            obtain ⟨rfl, rfl⟩ := step_out_eq h
            have hone : OneByte (s.input.take s.cursor ++ c :: s.input.drop s.cursor) := by
              intro x hx
              rcases List.mem_append.mp hx with hx | hx
              · exact hin x (List.take_subset s.cursor s.input hx)
              · rcases List.mem_cons.mp hx with rfl | hx
                · exact hc1
                · exact hin x (List.drop_subset s.cursor s.input hx)
            refine ⟨hone, hhist, ?_⟩
            show s.cursor + 1 ≤
              byteLen (s.input.take s.cursor ++ c :: s.input.drop s.cursor)
            rw [byteLen_oneByte _ hone]
            simp only [List.length_append, List.length_take, List.length_cons,
              List.length_drop]
            omega
        · simp at h
  | other =>
      simp only [handleEvent] at h
      obtain ⟨rfl, rfl⟩ := step_out_eq h
      exact ⟨hin, hhist, hcur⟩

/-- C5: the editor invariant holds in the initial state and is preserved by
every key event the loop body completes, so along every run of the Line
Editor the cursor offset satisfies `0 ≤ cursor ≤ len(buffer)` after each
event.  Events on which the code panics — such as typing a multi-byte
character, whose redraw slice `&input[..cursor.min(input.len())]` falls off
a character boundary — produce no successor state at all, so no state of any
run violates the bound. -/
theorem cursor_within_buffer (parseFn : σ → List Char → σ × P)
    (process : P → Option M) (p0 : σ) :
    EditInv (initState p0 : LoopState σ M) ∧
    (∀ (s : LoopState σ M) (e : Event) (s1 : LoopState σ M) (b : Bool),
        EditInv s →
        handleEvent parseFn process s e = some (s1, b) →
        EditInv s1 ∧ s1.cursor ≤ byteLen s1.input) := by
  constructor
  · refine ⟨?_, ?_, ?_⟩ <;> simp [initState, OneByte]
  · intro s e s1 b hs h
    have h2 := handleEvent_inv parseFn process s e s1 b hs h
    exact ⟨h2, h2.2.2⟩

/-- Witness for C5: from the initial state, typing the single-byte `a`
yields a state that keeps the invariant, with cursor 1 inside the one-byte
buffer. -/
theorem cursor_within_buffer_witness :
    EditInv stTypedA ∧ stTypedA.cursor ≤ byteLen stTypedA.input :=
  (cursor_within_buffer idProc lenReact ()).2 pInit (Event.char 'a') stTypedA
    false (by refine ⟨?_, ?_, ?_⟩ <;> decide) rfl

theorem runLoop_type_chars (parseFn : σ → List Char → σ × P)
    (process : P → Option M) (l : List Char) :
    ∀ (s : LoopState σ M) (rest : List Event), s.closed = false →
    s.cursor = byteLen s.input → (∀ c ∈ l, c.utf8Size = 1 ∧ c ≠ '\n') →
    runLoop parseFn process s (l.map Event.char ++ rest) =
      runLoop parseFn process
        { s with input := s.input ++ l, cursor := byteLen (s.input ++ l) } rest := by
  induction l with
  | nil =>
      intro s rest hcl hcur hl
      rw [List.map_nil, List.nil_append, List.append_nil, ← hcur]
  | cons c l ih =>
      intro s rest hcl hcur hl
      obtain ⟨hc1, hcn⟩ := hl c (List.mem_cons_self c l)
      have hl2 : ∀ x ∈ l, x.utf8Size = 1 ∧ x ≠ '\n' :=
        fun x hx => hl x (List.mem_cons_of_mem c hx)
      have hcond : ¬ s.closed = true := by
        rw [hcl]
        exact Bool.false_ne_true
      have hb1 : byteLen s.input + 1 = byteLen (s.input ++ [c]) := by
        rw [byteLen_append]
        simp [byteLen, hc1]
      have hg : setLineCheck (s.input ++ [c]) (byteLen s.input + 1) = true := by
        rw [hb1, setLineCheck_end]
      have hstep : handleEvent parseFn process s (Event.char c) =
          some ({ s with input := s.input ++ [c], cursor := s.cursor + 1 }, false) := by
        simp only [handleEvent, if_neg hcn]
        rw [hcur, insertAtByte_byteLen]
        simp [hg]
      have hcur2 : s.cursor + 1 = byteLen (s.input ++ [c]) := by
        rw [hcur]
        exact hb1
      rw [List.map_cons, List.cons_append, runLoop, if_neg hcond, hstep]
      show runLoop parseFn process
          { s with input := s.input ++ [c], cursor := s.cursor + 1 }
          (l.map Event.char ++ rest) = _
      rw [ih { s with input := s.input ++ [c], cursor := s.cursor + 1 }
        rest hcl hcur2 hl2]
      have hassoc : (s.input ++ [c]) ++ l = s.input ++ c :: l := by simp
      show runLoop parseFn process
          { s with input := (s.input ++ [c]) ++ l,
                   cursor := byteLen ((s.input ++ [c]) ++ l) } rest = _
      rw [hassoc]

theorem runLoop_submit (parseFn : σ → List Char → σ × P)
    (process : P → Option M) (s : LoopState σ M) (m : M) (rest : List Event)
    (hcl : s.closed = false)
    (hm : process (parseFn s.proc (trim s.input)).2 = some m) :
    runLoop parseFn process s (Event.char '\n' :: rest) =
      runLoop parseFn process
        { s with proc := (parseFn s.proc (trim s.input)).1, input := [],
                 cursor := 0, curr := none,
                 history := s.history ++ [trim s.input],
                 sent := s.sent ++ [m] } rest := by
  have hcond : ¬ s.closed = true := by
    rw [hcl]
    exact Bool.false_ne_true
  have hstep : handleEvent parseFn process s (Event.char '\n') =
      some ({ s with proc := (parseFn s.proc (trim s.input)).1, input := [],
                     cursor := 0, curr := none,
                     history := s.history ++ [trim s.input],
                     sent := s.sent ++ [m] }, false) := by
    simp [handleEvent, hm]
  rw [runLoop, if_neg hcond, hstep]

theorem runLoop_lines (parseFn : σ → List Char → σ × P)
    (process : P → Option M) (msgOf : List Char → M) (lines : List (List Char)) :
    ∀ (s : LoopState σ M), s.closed = false → s.input = [] → s.cursor = 0 →
    (∀ l ∈ lines, ∀ c ∈ l, c.utf8Size = 1 ∧ c ≠ '\n') →
    (∀ l ∈ lines, ∀ ps : σ, process (parseFn ps (trim l)).2 = some (msgOf l)) →
    (runLoop parseFn process s ((lines.map typeLine).flatten)).map
        (fun r => (r.1.sent, r.2)) =
      some (s.sent ++ lines.map msgOf, ExitReason.inputExhausted) := by
  induction lines with
  | nil =>
      intro s hcl hin hcur _ _
      simp [runLoop]
  | cons l ls ih =>
      intro s hcl hin hcur hchars hreact
      have hch : ∀ c ∈ l, c.utf8Size = 1 ∧ c ≠ '\n' :=
        hchars l (List.mem_cons_self l ls)
      have hchs : ∀ x ∈ ls, ∀ c ∈ x, c.utf8Size = 1 ∧ c ≠ '\n' :=
        fun x hx => hchars x (List.mem_cons_of_mem l hx)
      have hrs : ∀ x ∈ ls, ∀ ps : σ, process (parseFn ps (trim x)).2 = some (msgOf x) :=
        fun x hx => hreact x (List.mem_cons_of_mem l hx)
      have hcur0 : s.cursor = byteLen s.input := by
        rw [hcur, hin]
        rfl
      rw [List.map_cons, List.flatten_cons]
      simp only [typeLine]
      rw [List.append_assoc]
      rw [runLoop_type_chars parseFn process l s _ hcl hcur0 hch]
      have he : s.input ++ l = l := by
        rw [hin, List.nil_append]
      rw [he, List.singleton_append]
      rw [runLoop_submit parseFn process
          { proc := s.proc, input := l, history := s.history, curr := s.curr,
            cursor := byteLen l, closed := s.closed, sent := s.sent }
          (msgOf l) ((ls.map typeLine).flatten) hcl
          (hreact l (List.mem_cons_self l ls) s.proc)]
      show Option.map (fun r => (r.1.sent, r.2))
          (runLoop parseFn process
            { proc := (parseFn s.proc (trim l)).1, input := [],
              history := s.history ++ [trim l], curr := none, cursor := 0,
              closed := s.closed, sent := s.sent ++ [msgOf l] }
            ((ls.map typeLine).flatten)) =
        some (s.sent ++ List.map msgOf (l :: ls), ExitReason.inputExhausted)
      rw [ih { proc := (parseFn s.proc (trim l)).1, input := [],
               history := s.history ++ [trim l], curr := none, cursor := 0,
               closed := s.closed, sent := s.sent ++ [msgOf l] }
          hcl rfl rfl hchs hrs]
      show some ((s.sent ++ [msgOf l]) ++ List.map msgOf ls,
          ExitReason.inputExhausted) =
        some (s.sent ++ List.map msgOf (l :: ls), ExitReason.inputExhausted)
      rw [List.append_assoc, List.singleton_append, List.map_cons]

/-- C7: submitting lines in order, each of which the reaction callback maps
to a message, makes the run exit by input exhaustion with the channel
holding exactly those messages in submission order, and repeated polling
returns them in that same order — none reordered, batched, or dropped. -/
theorem poll_preserves_submission_order (parseFn : σ → List Char → σ × P)
    (process : P → Option M) (p0 : σ) (msgOf : List Char → M)
    (lines : List (List Char))
    (hchars : ∀ l ∈ lines, ∀ c ∈ l, c.utf8Size = 1 ∧ c ≠ '\n')
    (hreact : ∀ l ∈ lines, ∀ ps : σ,
      process (parseFn ps (trim l)).2 = some (msgOf l)) :
    (runLoop parseFn process (initState p0) ((lines.map typeLine).flatten)).map
        (fun r => (r.1.sent, pollN r.1.sent.length r.1, r.2)) =
      some (lines.map msgOf, lines.map msgOf, ExitReason.inputExhausted) := by
  have hL := runLoop_lines parseFn process msgOf lines (initState p0)
    rfl rfl rfl hchars hreact
  cases hrun : runLoop parseFn process (initState p0) ((lines.map typeLine).flatten) with
  | none =>
      rw [hrun] at hL
      simp at hL
  | some r =>
      rw [hrun] at hL
      simp only [Option.map_some'] at hL
      obtain ⟨h1, h2⟩ := Prod.mk.injEq .. |>.mp (Option.some.inj hL)
      simp only [Option.map_some']
      rw [pollN_sent r.1.sent.length r.1 (le_refl _), h1, h2]
      simp [initState]

/-- Witness for C7: submitting `ab` then `c` under the length reaction
yields messages 2 then 1 in submission order, both in the channel and when
polled. -/
theorem poll_preserves_submission_order_witness :
    (runLoop idProc lenReact pInit
        (([['a', 'b'], ['c']].map typeLine).flatten)).map
        (fun r => (r.1.sent, pollN r.1.sent.length r.1, r.2)) =
      some ([2, 1], [2, 1], ExitReason.inputExhausted) :=
  poll_preserves_submission_order idProc lenReact () (fun l => l.length)
    [['a', 'b'], ['c']] (by decide)
    (by
      intro l hl ps
      rcases List.mem_cons.mp hl with rfl | hl
      · rfl
      rcases List.mem_cons.mp hl with rfl | hl
      · rfl
      simp at hl)
